import Mathlib

/-!
Verification of the LBVH construction pipeline driven by
`samples/s12-swBVH/hostCode.cpp` (GPRT).  The host code transcribed here
sets up build parameters, allocates the buffers, seeds the scene-bounds
accumulator and launches the six construction stages in order.  The device
kernels themselves (the `lbvh` module) are not part of the given sources;
where a claim depends on their behaviour we model them from the spec and
say so in the doc comment of the corresponding definition.
-/

namespace SwBVH

/-- Extended scalar value used to talk about the host-side seeding of the
scene-bounds accumulator: a finite float value (modelled as a rational) or
one of the two IEEE infinities.  The host code writes the finite literal
`1e20f`; the spec speaks of infinities, so the model must be able to
distinguish the two. -/
inductive XVal where
  | fin (q : ℚ)
  | pinf
  | ninf
deriving DecidableEq

/-- The rational standing for the float literal `1e20f` written by the host
(hostCode.cpp lines 154-155).  The float literal rounds to a nearby finite
value; only finiteness and sign of the sentinel matter for the claims, so we
use the exact decimal value. -/
def lit1e20 : ℚ := 10 ^ 20

/-- A `float3` value as written by the host when seeding the accumulator. -/
structure XVec3 where
  x : XVal
  y : XVal
  z : XVal
deriving DecidableEq

/-- The buffers created by `main` in hostCode.cpp. -/
inductive Buf where
  | vertexBuf | indexBuf | scratch | mortonCodes | ids | nodes | aabbs | frameBuffer
deriving DecidableEq

/-- The GPU kernels launched by `main`: the five LBVH construction kernels
(hostCode.cpp lines 122-126) plus the ray-generation kernel of the render
loop. -/
inductive Kern where
  | computeBounds | computeCodes | makeNodes | splitNodes | buildHierarchy | raygen
deriving DecidableEq

/-- One host-visible operation of `main`, in program order: buffer
allocation, a host-side element write (mapped buffer), a host-side element
read, a compute launch with its thread count, or the sort-by-key call. -/
inductive Event where
  | alloc (b : Buf) (n : Nat)
  | hwrite (b : Buf) (i : Nat) (v : XVec3)
  | hread (b : Buf) (i : Nat)
  | launch (k : Kern) (n : Nat)
  | sortEv (keys vals scratchBuf : Buf)
deriving DecidableEq

/-- The `LBVHData` parameter struct as filled in by hostCode.cpp lines
131-149: primitive count and the derived node counts, plus the buffer
handles.  `numInner`/`numNodes` use truncated subtraction; the spec (§7)
requires `P ≥ 1`, under which this agrees with the C arithmetic. -/
structure LBVHData where
  numPrims : Nat
  numInner : Nat
  numNodes : Nat
  triangles : Buf
  positions : Buf
  mortonCodesH : Buf
  idsH : Buf
  nodesH : Buf
  aabbsH : Buf
deriving DecidableEq

/-- hostCode.cpp lines 131-149: `numPrims = P`, `numInner = P - 1`,
`numNodes = 2P - 1`, handles bound to the created buffers. -/
def mkLBVHParams (P : Nat) : LBVHData :=
  { numPrims := P
    numInner := P - 1
    numNodes := 2 * P - 1
    triangles := Buf.indexBuf
    positions := Buf.vertexBuf
    mortonCodesH := Buf.mortonCodes
    idsH := Buf.ids
    nodesH := Buf.nodes
    aabbsH := Buf.aabbs }

/-- hostCode.cpp lines 158-162: the same parameter struct is handed to each
of the five LBVH kernels; the raygen kernel gets its own data. -/
def stageParams (P : Nat) : Kern → Option LBVHData
  | Kern.raygen => none
  | _ => some (mkLBVHParams P)

/-- The min-corner seed value written by the host: `aabbPtr[0].x = .y = .z
= 1e20f` (hostCode.cpp line 154). -/
def seedLoVal : XVec3 := ⟨XVal.fin lit1e20, XVal.fin lit1e20, XVal.fin lit1e20⟩

/-- The max-corner seed value written by the host: `aabbPtr[1].x = .y = .z
= -1e20f` (hostCode.cpp line 155). -/
def seedHiVal : XVec3 := ⟨XVal.fin (-lit1e20), XVal.fin (-lit1e20), XVal.fin (-lit1e20)⟩

/-- Frame-buffer size, hostCode.cpp line 87: 1920 x 1080 pixels. -/
def fbPixels : Nat := 1920 * 1080

/-- Host operations before any kernel launch (hostCode.cpp lines 129-156):
upload the mesh (vertex/index buffers, `V` vertices and `P` triangles),
create scratch/morton/id/node/aabb buffers, and seed the root AABB slot. -/
def hostSetupEvents (V P : Nat) : List Event :=
  [ Event.alloc Buf.vertexBuf V,
    Event.alloc Buf.indexBuf P,
    Event.alloc Buf.scratch 0,
    Event.alloc Buf.mortonCodes P,
    Event.alloc Buf.ids P,
    Event.alloc Buf.nodes (mkLBVHParams P).numNodes,
    Event.alloc Buf.aabbs (2 * (mkLBVHParams P).numNodes),
    Event.hwrite Buf.aabbs 0 seedLoVal,
    Event.hwrite Buf.aabbs 1 seedHiVal ]

/-- The construction pass (hostCode.cpp lines 166-171): the five compute
launches with their thread counts and the sort-by-key call between stage 2
and stage 4. -/
def hostBuildEvents (P : Nat) : List Event :=
  [ Event.launch Kern.computeBounds (mkLBVHParams P).numPrims,
    Event.launch Kern.computeCodes (mkLBVHParams P).numPrims,
    Event.sortEv Buf.mortonCodes Buf.ids Buf.scratch,
    Event.launch Kern.makeNodes (mkLBVHParams P).numNodes,
    Event.launch Kern.splitNodes (mkLBVHParams P).numInner,
    Event.launch Kern.buildHierarchy (mkLBVHParams P).numPrims ]

/-- The read-back loop (hostCode.cpp lines 173-185): for every node `i` the
host reads the node record and the two AABB corners at `i*2+0` and
`i*2+1`. -/
def hostReadbackEvents (P : Nat) : List Event :=
  (List.range (mkLBVHParams P).numNodes).flatMap (fun i =>
    [ Event.hread Buf.nodes i,
      Event.hread Buf.aabbs (i * 2 + 0),
      Event.hread Buf.aabbs (i * 2 + 1) ])

/-- One iteration of the render loop (hostCode.cpp lines 215-284): a raygen
launch over the frame buffer followed by presenting it. -/
def frameLoopEvents (F : Nat) : List Event :=
  (List.range F).flatMap (fun _ =>
    [ Event.launch Kern.raygen fbPixels, Event.hread Buf.frameBuffer 0 ])

/-- Everything after the construction pass: the read-back loop, the
frame-buffer allocation (line 197), `F` render-loop iterations and the
final image save (line 288), which reads the frame buffer. -/
def hostPostEvents (P F : Nat) : List Event :=
  hostReadbackEvents P ++ [Event.alloc Buf.frameBuffer fbPixels]
    ++ frameLoopEvents F ++ [Event.hread Buf.frameBuffer 0]

/-- The whole of `main` as an ordered trace of buffer-relevant operations,
for a mesh with `V` vertices and `P` triangles and `F` rendered frames. -/
def hostTrace (V P F : Nat) : List Event :=
  hostSetupEvents V P ++ hostBuildEvents P ++ hostPostEvents P F

/-- Modelled from the spec: the write footprints of the device kernels.
The `lbvh` device code is not among the given sources; per spec §4.1-§4.6
stage 1 widens the scene AABB (in the aabb buffer), stage 2 emits
morton-code/id pairs, stage 4 initialises node bookkeeping and leaf AABBs,
stage 5 wires node links, stage 6 updates arrival counters (node records)
and internal AABBs, and the raygen kernel writes the frame buffer.  No
kernel writes the vertex or index buffer (spec §6: caller-owned,
immutable). -/
def kernWrites : Kern → List Buf
  | Kern.computeBounds => [Buf.aabbs]
  | Kern.computeCodes => [Buf.mortonCodes, Buf.ids]
  | Kern.makeNodes => [Buf.nodes, Buf.aabbs]
  | Kern.splitNodes => [Buf.nodes]
  | Kern.buildHierarchy => [Buf.nodes, Buf.aabbs]
  | Kern.raygen => [Buf.frameBuffer]

/-- Buffers an event may write: allocation initialises its buffer, a host
write writes its buffer, launches write their kernel's footprint, the sort
permutes keys and values in place using the scratch area. -/
def eventWrites : Event → List Buf
  | Event.alloc b _ => [b]
  | Event.hwrite b _ _ => [b]
  | Event.hread _ _ => []
  | Event.launch k _ => kernWrites k
  | Event.sortEv a b c => [a, b, c]

/-- Tags identifying the six construction stages of spec §2 inside the
event trace. -/
inductive StageTag where
  | boundsT | codesT | sortT | allocT | splitT | refitT
deriving DecidableEq

/-- Classify an event as one of the six construction stages (or none). -/
def buildOpOf : Event → Option StageTag
  | Event.launch Kern.computeBounds _ => some StageTag.boundsT
  | Event.launch Kern.computeCodes _ => some StageTag.codesT
  | Event.sortEv _ _ _ => some StageTag.sortT
  | Event.launch Kern.makeNodes _ => some StageTag.allocT
  | Event.launch Kern.splitNodes _ => some StageTag.splitT
  | Event.launch Kern.buildHierarchy _ => some StageTag.refitT
  | _ => none

/-- The thread count the host passes when launching kernel `k`, read off
the build-event list (hostCode.cpp lines 166-171). -/
def launchSizeOf (P : Nat) (k : Kern) : Option Nat :=
  (hostBuildEvents P).findSome? (fun e =>
    match e with
    | Event.launch k' n => if k' = k then some n else none
    | _ => none)

end SwBVH

namespace SwBVH

/-! ### Geometry and the device-side pipeline, modelled from the spec

The `lbvh` device kernels are repository code that is not among the given
sources; the definitions below model them from spec §3-§4.  Coordinates are
exact rationals (the spec's determinism and structural claims do not hinge
on rounding). -/

/-- A three-component vector of rational coordinates. -/
structure Vec3 where
  x : ℚ
  y : ℚ
  z : ℚ
deriving DecidableEq

/-- An axis-aligned bounding box: min and max corner. -/
structure Box where
  lo : Vec3
  hi : Vec3
deriving DecidableEq

/-- Componentwise minimum. -/
def vmin (a b : Vec3) : Vec3 := ⟨min a.x b.x, min a.y b.y, min a.z b.z⟩

/-- Componentwise maximum. -/
def vmax (a b : Vec3) : Vec3 := ⟨max a.x b.x, max a.y b.y, max a.z b.z⟩

/-- Union of two AABBs: min of mins, max of maxes (spec §3). -/
def boxUnion (a b : Box) : Box := ⟨vmin a.lo b.lo, vmax a.hi b.hi⟩

/-- The seed box the host writes before stage 1: the finite sentinels
`(1e20,1e20,1e20)` / `(-1e20,-1e20,-1e20)` of hostCode.cpp lines 154-155,
as rationals. -/
def seedBox : Box :=
  ⟨⟨lit1e20, lit1e20, lit1e20⟩, ⟨-lit1e20, -lit1e20, -lit1e20⟩⟩

/-- Triangle-mesh input (spec §6): caller-owned vertex positions and a
triple of vertex indices per primitive. -/
structure Geom where
  vertices : List Vec3
  triangles : List (Nat × Nat × Nat)
deriving DecidableEq

/-- Look a vertex up, defaulting to the origin (device code reads raw
buffer memory; spec §7 makes index validity a caller precondition). -/
def vertexAt (g : Geom) (i : Nat) : Vec3 := g.vertices.getD i ⟨0, 0, 0⟩

/-- Modelled from the spec (§4.1): a primitive's AABB is the bounding box
of its three vertices. -/
def triBoxOf (g : Geom) (t : Nat × Nat × Nat) : Box :=
  let a := vertexAt g t.1
  let b := vertexAt g t.2.1
  let c := vertexAt g t.2.2
  ⟨vmin a (vmin b c), vmax a (vmax b c)⟩

/-- The per-primitive AABBs in primitive order. -/
def primBoxes (g : Geom) : List Box := g.triangles.map (triBoxOf g)

/-- Modelled from the spec (§4.1): stage 1 widens the seeded accumulator by
every primitive box via atomic min/max; an execution is a fold over the
per-primitive boxes in the (scheduler-chosen) order they arrive. -/
def accumBounds (order : List Box) : Box := order.foldl boxUnion seedBox

/-- Modelled from the spec (§4.2): a primitive's centroid. -/
def centroidOf (g : Geom) (t : Nat × Nat × Nat) : Vec3 :=
  let a := vertexAt g t.1
  let b := vertexAt g t.2.1
  let c := vertexAt g t.2.2
  ⟨(a.x + b.x + c.x) / 3, (a.y + b.y + c.y) / 3, (a.z + b.z + c.z) / 3⟩

/-- Modelled from the spec (§4.2): normalize one coordinate into `[0,1]`
relative to the scene bounds, treating a zero-extent axis as 0. -/
def normCoord (lo hi c : ℚ) : ℚ := if hi = lo then 0 else (c - lo) / (hi - lo)

/-- Modelled from the spec (§4.2): quantize a normalized coordinate to 10
bits (clamped to `[0, 1023]`). -/
def quant10 (u : ℚ) : Nat := min 1023 (Int.toNat ⌊u * 1024⌋)

/-- Spread the low 10 bits of `v` so that bit `i` lands at bit `3*i`
(Morton/Z-order bit interleaving, one axis). -/
def spreadBits3 (v : Nat) : Nat :=
  (List.range 10).foldl (fun acc i => acc + ((v >>> i) % 2) <<< (3 * i)) 0

/-- Modelled from the spec (§4.2): the 30-bit Morton code of a quantized
triple: x bits at positions `3i`, y at `3i+1`, z at `3i+2`. -/
def morton3D (qx qy qz : Nat) : Nat :=
  spreadBits3 qx + (spreadBits3 qy <<< 1) + (spreadBits3 qz <<< 2)

/-- Modelled from the spec (§4.2): the Morton key of one primitive given
the scene bounds. -/
def mortonOf (scene : Box) (c : Vec3) : Nat :=
  morton3D
    (quant10 (normCoord scene.lo.x scene.hi.x c.x))
    (quant10 (normCoord scene.lo.y scene.hi.y c.y))
    (quant10 (normCoord scene.lo.z scene.hi.z c.z))

/-- Stage 2 output: one `(key, primitive-id)` pair per primitive, the id
being the primitive's original index (spec §4.2). -/
def keyPairs (g : Geom) (scene : Box) : List (Nat × Nat) :=
  (g.triangles.enum).map (fun ti => (mortonOf scene (centroidOf g ti.2), ti.1))

/-- Pair order used by the sort: ascending key, ties broken by primitive
index (spec §4.3). -/
def pairLE (a b : Nat × Nat) : Bool :=
  if a.1 = b.1 then a.2 ≤ b.2 else a.1 < b.1

/-- Insert into a sorted list, keeping stability (spec §4.3: any
deterministic index-preserving sort satisfies the contract; we model it
with insertion sort). -/
def insertPair (a : Nat × Nat) : List (Nat × Nat) → List (Nat × Nat)
  | [] => [a]
  | b :: t => if pairLE a b then a :: b :: t else b :: insertPair a t

/-- The sorted `(key, id)` sequence after stage 3. -/
def sortPairs (l : List (Nat × Nat)) : List (Nat × Nat) :=
  l.foldr insertPair []

/-- Number of bits of `x` (0 for 0). -/
def bitLen (x : Nat) : Nat := if x = 0 then 0 else Nat.log2 x + 1

/-- Count of leading zeros in a 32-bit word. -/
def clz32 (x : Nat) : Nat := 32 - bitLen x

/-- Modelled from the spec (§4.5): the common-prefix-length measure
`delta(i, j)` over the sorted keys, with the out-of-range sentinel `-1` and
index tie-break when keys are equal. -/
def deltaK (ks : List Nat) (i j : Int) : Int :=
  if 0 ≤ j ∧ j < (ks.length : Int) ∧ 0 ≤ i ∧ i < (ks.length : Int) then
    let ki := ks.getD i.toNat 0
    let kj := ks.getD j.toNat 0
    if ki = kj then 32 + (clz32 (i.toNat ^^^ j.toNat) : Int)
    else (clz32 (ki ^^^ kj) : Int)
  else -1

/-- Doubling search for the length bound of internal node `i`'s range
(spec §4.5); `fuel` bounds the iteration count (64 suffices for 32-bit
keys and any list length below `2^60`). -/
def lmaxLoop (ks : List Nat) (i d dmin : Int) : Nat → Int → Int
  | 0, lmax => lmax
  | fuel + 1, lmax =>
    if deltaK ks i (i + lmax * d) > dmin then lmaxLoop ks i d dmin fuel (lmax * 2)
    else lmax

/-- Binary search for the exact other end of the range (spec §4.5). -/
def lenLoop (ks : List Nat) (i d dmin : Int) : Nat → Int → Int → Int
  | 0, _, l => l
  | fuel + 1, t, l =>
    if t = 0 then l
    else
      let l' := if deltaK ks i (i + (l + t) * d) > dmin then l + t else l
      lenLoop ks i d dmin fuel (t / 2) l'

/-- Binary search for the split position inside the range (spec §4.5). -/
def splitLoop (ks : List Nat) (i d dnode : Int) : Nat → Int → Int → Int
  | 0, _, s => s
  | fuel + 1, t, s =>
    let t' := (t + 1) / 2
    let s' := if deltaK ks i (i + (s + t') * d) > dnode then s + t' else s
    if t' ≤ 1 then s' else splitLoop ks i d dnode fuel t' s'

/-- Modelled from the spec (§4.5, Karras): for internal node `i`, the
index pair `(left, right)` of its children in the sorted-leaf indexing,
each tagged with whether it is a leaf (covers a single sorted position) or
an internal node. -/
def karrasChildren (ks : List Nat) (i : Nat) : (Bool × Nat) × (Bool × Nat) :=
  let ii : Int := i
  let d : Int := if deltaK ks ii (ii + 1) ≥ deltaK ks ii (ii - 1) then 1 else -1
  let dmin := deltaK ks ii (ii - d)
  let lmax := lmaxLoop ks ii d dmin 64 2
  let l := lenLoop ks ii d dmin 64 (lmax / 2) 0
  let j := ii + l * d
  let dnode := deltaK ks ii j
  let s := splitLoop ks ii d dnode 64 l.toNat 0
  let gamma := ii + s * d + min d 0
  let g := gamma.toNat
  ((min ii j = gamma, g), (max ii j = gamma + 1, g + 1))

end SwBVH

namespace SwBVH

/-- A node record of the `2P-1`-entry node array (spec §3, §6): left and
right child indices (`-1` for leaves) and parent index (`-1` for the
root).  Array layout per spec §3: entries `[0, P)` are the sorted leaves,
entries `[P, 2P-1)` the internal nodes, internal node `i` of Karras'
indexing living at entry `P + i`. -/
structure LNode where
  left : Int
  right : Int
  parent : Int
deriving DecidableEq

/-- Array index of a Karras child tag: a leaf child covering sorted
position `j` lives at entry `j`, an internal child `j` at entry `P + j`. -/
def childIndex (P : Nat) (c : Bool × Nat) : Nat :=
  if c.1 then c.2 else P + c.2

/-- Modelled from the spec (§4.4-§4.5): the node array after the skeleton
allocation and split/link stages.  Leaves get no children; each internal
node `i` gets the two children computed by Karras' algorithm; every node's
parent is the internal node that claimed it as a child (`-1` for the
root). -/
def buildNodes (ks : List Nat) : List LNode :=
  let P := ks.length
  let childrenOf := fun i => karrasChildren ks i
  let parentOf : Nat → Int := fun n =>
    (List.range (P - 1)).findSome? (fun i =>
      let c := childrenOf i
      if childIndex P c.1 = n ∨ childIndex P c.2 = n then some ((P + i : Nat) : Int)
      else none) |>.getD (-1)
  (List.range P).map (fun j => LNode.mk (-1) (-1) (parentOf j)) ++
    (List.range (P - 1)).map (fun i =>
      let c := childrenOf i
      LNode.mk (childIndex P c.1) (childIndex P c.2) (parentOf (P + i)))

/-- Binary tree with a leaf AABB at every leaf; the shape over which the
refit stage runs (spec §4.6 must work for any tree shape). -/
inductive BTree where
  | leaf (box : Box)
  | node (l r : BTree)
deriving DecidableEq

/-- The exact union of all leaf boxes of a subtree: the value the refit
stage must put at every node (spec §8, AABB correctness). -/
def treeBox : BTree → Box
  | BTree.leaf b => b
  | BTree.node l r => boxUnion (treeBox l) (treeBox r)

/-- Modelled from the spec: rebuild the tree shape from the node array,
reading child links downward from an entry; `fuel` bounds the depth (the
array has no cycles in a well-formed build, and determinism claims do not
depend on well-formedness).  Leaf entry `j` carries the AABB of the sorted
primitive at position `j`. -/
def treeOfNodes (nodes : List LNode) (leafBox : Nat → Box) (P : Nat) :
    Nat → Nat → BTree
  | 0, n => BTree.leaf (leafBox n)
  | fuel + 1, n =>
    if n < P then BTree.leaf (leafBox n)
    else
      match nodes.getD n (LNode.mk (-1) (-1) (-1)) with
      | LNode.mk l r _ =>
        BTree.node (treeOfNodes nodes leafBox P fuel l.toNat)
          (treeOfNodes nodes leafBox P fuel r.toNat)

/-- The scene bounds of a build whose stage-1 atomics arrived in the order
given by `accOrder` (a permutation of the per-primitive boxes). -/
def buildScene (accOrder : List Box) : Box := accumBounds accOrder

/-- The sorted `(key, id)` pairs of the build (stages 2-3). -/
def buildSorted (g : Geom) (scene : Box) : List (Nat × Nat) :=
  sortPairs (keyPairs g scene)

/-- The sorted Morton keys alone. -/
def buildKeys (g : Geom) (scene : Box) : List Nat :=
  (buildSorted g scene).map (fun p => p.1)

/-- The sorted primitive-index permutation alone. -/
def buildIds (g : Geom) (scene : Box) : List Nat :=
  (buildSorted g scene).map (fun p => p.2)

/-- The node array of the build (stages 4-5). -/
def buildLinks (g : Geom) (scene : Box) : List LNode :=
  buildNodes (buildKeys g scene)

/-- The AABB of the leaf at sorted position `j`: the bounds of the
primitive `ids[j]` (spec §4.4). -/
def buildLeafBox (g : Geom) (scene : Box) (j : Nat) : Box :=
  (primBoxes g).getD ((buildIds g scene).getD j 0) seedBox

/-- The tree shape the build produces: entry `P` (Karras internal node 0)
is the root when `P ≥ 2`; a single-primitive build has its lone leaf at
entry 0 as the root (spec §7). -/
def buildTreeOf (g : Geom) (scene : Box) : BTree :=
  let P := (g.triangles).length
  let root := if P ≤ 1 then 0 else P
  treeOfNodes (buildLinks g scene) (buildLeafBox g scene) P (2 * P) root

/-! ### The refit stage as a state machine over arbitrary interleavings

Modelled from the spec (§4.6, §5): one thread per leaf walks up the parent
chain; at each internal node it atomically increments that node's arrival
counter; the first arrival terminates its walk, the second performs the
union of the two children's AABBs, writes it, and continues upward.  A
schedule is an arbitrary interleaving of the per-thread steps, so the
theorems quantify over every possible arrival order. -/

/-- A position in the tree, listed bottom-up: `[]` is the root and
`d :: p` is the child of `p` on side `d` (`false` = left). -/
abbrev Pos : Type := List Bool

/-- The subtree at a position, if the position is valid. -/
def subtreeAt (t : BTree) : Pos → Option BTree
  | [] => some t
  | d :: q =>
    match subtreeAt t q with
    | some (BTree.node l r) => some (if d then r else l)
    | _ => none

/-- The leaf box at a position, if the position holds a leaf. -/
def leafAt (t : BTree) (p : Pos) : Option Box :=
  match subtreeAt t p with
  | some (BTree.leaf b) => some b
  | _ => none

/-- Whether a position holds an internal node. -/
def nodeAt (t : BTree) (p : Pos) : Bool :=
  match subtreeAt t p with
  | some (BTree.node _ _) => true
  | _ => false

/-- The exact subtree union at a position (the reference value for the
refit result). -/
def treeBoxAt (t : BTree) (p : Pos) : Option Box :=
  (subtreeAt t p).map treeBox

/-- The positions of all leaves, left to right (the sorted-leaf order). -/
def leafPositions : BTree → List Pos
  | BTree.leaf _ => [([] : List Bool)]
  | BTree.node l r =>
    (leafPositions l).map (fun p => p ++ [false]) ++
      (leafPositions r).map (fun p => p ++ [true])

/-- Where a walk standing at position `p` goes next: the parent of `p`,
or nowhere if `p` is the root. -/
def walkNext : Pos → Option Pos
  | [] => none
  | _ :: q => some q

/-- State of the refit stage: per-position arrival counter, per-position
count of executed union-writes (the instrumentation the claim speaks of),
per-position AABB slot, and each leaf thread's next arrival position
(`none` = terminated). -/
structure RState where
  counter : Pos → Nat
  writes : Pos → Nat
  boxes : Pos → Option Box
  threads : List (Option Pos)

/-- The union of the two child AABBs currently stored below `p` (what the
second-arriving thread writes at `p`). -/
def childUnion (s : RState) (p : Pos) : Option Box :=
  match s.boxes (false :: p), s.boxes (true :: p) with
  | some a, some b => some (boxUnion a b)
  | _, _ => none

/-- One atomic step of thread `i` (spec §4.6): arrive at its pending
position `p`, increment the counter there; if this thread is the first
arrival it terminates, otherwise it performs the union-write at `p` and
moves on to `p`'s parent (terminating at the root). -/
def step (s : RState) (i : Nat) : RState :=
  match s.threads[i]? with
  | some (some p) =>
    if s.counter p = 0 then
      { s with
        counter := fun q => if q = p then s.counter p + 1 else s.counter q,
        threads := s.threads.set i none }
    else
      { counter := fun q => if q = p then s.counter p + 1 else s.counter q,
        writes := fun q => if q = p then s.writes p + 1 else s.writes q,
        boxes := fun q => if q = p then childUnion s p else s.boxes q,
        threads := s.threads.set i (walkNext p) }
  | _ => s

/-- The state before the refit launch: counters and write counts zero,
leaf AABBs in place (stage 4, spec §4.4), internal AABB slots unwritten,
and one thread per leaf about to arrive at its parent. -/
def initState (t : BTree) : RState :=
  { counter := fun _ => 0
    writes := fun _ => 0
    boxes := fun p => leafAt t p
    threads := (leafPositions t).map walkNext }

/-- Run the refit stage under an interleaving `sch` of thread steps. -/
def run (t : BTree) (sch : List Nat) : RState :=
  sch.foldl step (initState t)

/-- A run is complete when every leaf thread has terminated. -/
def completeRun (s : RState) : Prop := ∀ o ∈ s.threads, o = none

instance (s : RState) : Decidable (completeRun s) :=
  inferInstanceAs (Decidable (∀ o ∈ s.threads, o = none))

/-- The final AABBs the refit stage reaches under schedule `sch`. -/
def refitBoxes (g : Geom) (scene : Box) (sch : List Nat) : Pos → Option Box :=
  (run (buildTreeOf g scene) sch).boxes

/-- Occurrence count of a value in a list (used for the in-flight-thread
bookkeeping of the refit invariant). -/
def occ {α : Type} [DecidableEq α] : List α → α → Nat
  | [], _ => 0
  | a :: l, x => (if a = x then 1 else 0) + occ l x

/-- The number of upward arrivals child position `c` contributes to its
parent: a leaf contributes its own thread once; an internal child
contributes one arrival per union-write executed at it. -/
def childEmit (t : BTree) (s : RState) (c : Pos) : Nat :=
  if (leafAt t c).isSome then 1 else s.writes c

/-- The inductive invariant of the refit machine (spec §4.6): at every
internal position `p`, arrivals so far plus in-flight threads headed to
`p` balance the emissions of `p`'s two children; the write count trails
the arrival counter by exactly one; at most two arrivals ever happen; leaf
AABBs stay put; an internal AABB slot holds exactly the subtree union once
written and nothing before; invalid positions are never touched; and every
live thread is headed to an internal position. -/
structure Inv (t : BTree) (s : RState) : Prop where
  hthreads : ∀ (i : Nat) (p : Pos), s.threads[i]? = some (some p) → nodeAt t p = true
  hcnt : ∀ p, nodeAt t p = true →
    s.counter p + occ s.threads (some p) =
      childEmit t s (false :: p) + childEmit t s (true :: p)
  hw : ∀ p, nodeAt t p = true → s.writes p = s.counter p - 1
  hc2 : ∀ p, nodeAt t p = true → s.counter p ≤ 2
  hboxleaf : ∀ p b, leafAt t p = some b → s.boxes p = some b
  hboxnode : ∀ p, nodeAt t p = true →
    s.boxes p = if s.writes p = 0 then none else treeBoxAt t p
  hboxinv : ∀ p, leafAt t p = none → nodeAt t p = false → s.boxes p = none

end SwBVH

namespace SwBVH

/-- Whether an event is a kernel launch. -/
def isLaunch : Event → Bool
  | Event.launch _ _ => true
  | _ => false

/-- A mesh holding a single triangle over three given vertices. -/
def oneTriGeom (a b c : Vec3) : Geom := ⟨[a, b, c], [(0, 1, 2)]⟩

/-- The AABB of a triangle given by its three corners. -/
def triBox3 (a b c : Vec3) : Box := ⟨vmin a (vmin b c), vmax a (vmax b c)⟩

end SwBVH

namespace SwBVH

/-! ### Host-side claims -/

theorem filterMap_buildOp_flatMap_nil {α : Type} (l : List α) (f : α → List Event)
    (h : ∀ x, (f x).filterMap buildOpOf = []) :
    (l.flatMap f).filterMap buildOpOf = [] := by
  induction l with
  | nil => rfl
  | cons a t ih => simp [List.flatMap_cons, List.filterMap_append, h, ih]

/-- Claim C2: for every primitive count `P` (≥ 1, the core's precondition),
the build parameters consumed by every stage satisfy `numInner = P - 1` and
`numNodes = 2P - 1`, and the node array is allocated with exactly `2P - 1`
entries. -/
theorem claim_C2 (V P : Nat) (hP : 1 ≤ P) :
    (∀ k d, stageParams P k = some d →
      (d.numInner : ℤ) = (P : ℤ) - 1 ∧ (d.numNodes : ℤ) = 2 * (P : ℤ) - 1) ∧
    Event.alloc Buf.nodes (mkLBVHParams P).numNodes ∈ hostSetupEvents V P ∧
    ((mkLBVHParams P).numNodes : ℤ) = 2 * (P : ℤ) - 1 := by
  refine ⟨?_, ?_, ?_⟩
  · intro k d hd
    have hd' : d = mkLBVHParams P := by
      cases k <;> simp [stageParams] at hd <;> exact hd.symm
    subst hd'
    simp only [mkLBVHParams]
    omega
  · simp [hostSetupEvents]
  · simp only [mkLBVHParams]
    omega

end SwBVH

namespace SwBVH

/-- Claim C2 witness: at `P = 5` the parameters given to the bounds kernel
have 4 inner and 9 total nodes, and 9 node entries are allocated. -/
theorem claim_C2_witness :
    (1 ≤ 5 ∧ ((mkLBVHParams 5).numNodes : ℤ) = 2 * (5 : ℤ) - 1) :=
  ⟨by norm_num, (claim_C2 3 5 (by norm_num)).2.2⟩

/-- Claim C3: across the whole program trace, the six construction stages
appear exactly once each, strictly in the order bounds computation, Morton
codes, sort, node allocation, split/link, refit.  In this sequential trace
model each stage's launch returns before the next is issued, matching the
spec's barrier-between-stages execution model. -/
theorem claim_C3 (V P F : Nat) :
    (hostTrace V P F).filterMap buildOpOf =
      [StageTag.boundsT, StageTag.codesT, StageTag.sortT,
       StageTag.allocT, StageTag.splitT, StageTag.refitT] := by
  have h1 : (hostSetupEvents V P).filterMap buildOpOf = [] := by
    simp [hostSetupEvents, buildOpOf]
  have h2 : (hostBuildEvents P).filterMap buildOpOf =
      [StageTag.boundsT, StageTag.codesT, StageTag.sortT,
       StageTag.allocT, StageTag.splitT, StageTag.refitT] := by
    simp [hostBuildEvents, buildOpOf]
  have h3 : (hostReadbackEvents P).filterMap buildOpOf = [] :=
    filterMap_buildOp_flatMap_nil _ _ (fun _ => rfl)
  have h4 : (frameLoopEvents F).filterMap buildOpOf = [] :=
    filterMap_buildOp_flatMap_nil _ _ (fun _ => rfl)
  simp [hostTrace, hostPostEvents, List.filterMap_append, h1, h2, h3, h4, buildOpOf]

/-- Claim C4 counterexample: at `P = 2` primitives, stage 4 (the node
allocation / leaf-init kernel `MakeNodes`) is launched with `numNodes = 3`
threads, not with one thread per primitive. -/
theorem claim_C4_counterexample :
    launchSizeOf 2 Kern.makeNodes ≠ some ((mkLBVHParams 2).numPrims) := by
  decide

/-- Claim C4 amended: stages 1, 2 and 6 are launched with one thread per
primitive, stage 5 with one thread per internal node, but stage 4 (node
allocation) with one thread per node, i.e. `2P - 1` threads. -/
theorem claim_C4_amended (P : Nat) (hP : 1 ≤ P) :
    launchSizeOf P Kern.computeBounds = some P ∧
    launchSizeOf P Kern.computeCodes = some P ∧
    launchSizeOf P Kern.makeNodes = some ((mkLBVHParams P).numNodes) ∧
    ((mkLBVHParams P).numNodes : ℤ) = 2 * (P : ℤ) - 1 ∧
    launchSizeOf P Kern.splitNodes = some ((mkLBVHParams P).numInner) ∧
    ((mkLBVHParams P).numInner : ℤ) = (P : ℤ) - 1 ∧
    launchSizeOf P Kern.buildHierarchy = some P := by
  refine ⟨rfl, rfl, rfl, ?_, rfl, ?_, rfl⟩ <;> (simp only [mkLBVHParams]; omega)

/-- Claim C4 amended witness: the launch sizes at `P = 3`. -/
theorem claim_C4_witness :
    launchSizeOf 3 Kern.makeNodes = some ((mkLBVHParams 3).numNodes) :=
  (claim_C4_amended 3 (by norm_num)).2.2.1

end SwBVH

namespace SwBVH

/-- Claim C8: the AABB output array is allocated with exactly `2(2P-1)`
entries and is indexed identically to the `2P-1`-entry node array: node
`i`'s box occupies AABB entries `2i` and `2i+1` (both in bounds), exactly
as the host read-back loop addresses it. -/
theorem claim_C8 (V P : Nat) (hP : 1 ≤ P) :
    Event.alloc Buf.aabbs (2 * (mkLBVHParams P).numNodes) ∈ hostSetupEvents V P ∧
    ((2 * (mkLBVHParams P).numNodes : Nat) : ℤ) = 2 * (2 * (P : ℤ) - 1) ∧
    ∀ i < (mkLBVHParams P).numNodes,
      Event.hread Buf.aabbs (i * 2 + 0) ∈ hostReadbackEvents P ∧
      Event.hread Buf.aabbs (i * 2 + 1) ∈ hostReadbackEvents P ∧
      i * 2 + 1 < 2 * (mkLBVHParams P).numNodes := by
  refine ⟨by simp [hostSetupEvents], ?_, ?_⟩
  · simp only [mkLBVHParams]
    omega
  · intro i hi
    refine ⟨?_, ?_, by omega⟩ <;>
      · unfold hostReadbackEvents
        rw [List.mem_flatMap]
        exact ⟨i, List.mem_range.mpr hi, by simp⟩

/-- Claim C8 witness: at `P = 2` the AABB buffer has 6 entries and node 1
occupies entries 2 and 3. -/
theorem claim_C8_witness :
    Event.hread Buf.aabbs (1 * 2 + 0) ∈ hostReadbackEvents 2 :=
  ((claim_C8 4 2 (by norm_num)).2.2 1 (by decide)).1

/-- Claim C9: the node and AABB arrays are written only during the single
construction pass: every event after the build (read-back, render loop,
image save) leaves them untouched, and no build-pass event writes the
caller's vertex or index buffer. -/
theorem claim_C9 (V P F : Nat) :
    (∀ e ∈ hostBuildEvents P,
      Buf.vertexBuf ∉ eventWrites e ∧ Buf.indexBuf ∉ eventWrites e) ∧
    (∀ e ∈ hostPostEvents P F,
      Buf.nodes ∉ eventWrites e ∧ Buf.aabbs ∉ eventWrites e) := by
  constructor
  · intro e he
    simp only [hostBuildEvents, List.mem_cons, List.mem_singleton,
      List.not_mem_nil, or_false] at he
    rcases he with rfl | rfl | rfl | rfl | rfl | rfl <;>
      simp [eventWrites, kernWrites]
  · intro e he
    simp only [hostPostEvents, List.mem_append, List.mem_singleton] at he
    rcases he with ((hr | rfl) | hf) | rfl
    · rw [hostReadbackEvents, List.mem_flatMap] at hr
      obtain ⟨i, _, hmem⟩ := hr
      simp only [List.mem_cons, List.not_mem_nil, or_false] at hmem
      rcases hmem with rfl | rfl | rfl <;> simp [eventWrites]
    · simp [eventWrites]
    · rw [frameLoopEvents, List.mem_flatMap] at hf
      obtain ⟨i, _, hmem⟩ := hf
      simp only [List.mem_cons, List.not_mem_nil, or_false] at hmem
      rcases hmem with rfl | rfl <;> simp [eventWrites, kernWrites]
    · simp [eventWrites]

/-- Claim C9 witness: the refit launch of a `P = 2` build does not write
the vertex buffer, and the first read-back event does not write the node
array. -/
theorem claim_C9_witness :
    Buf.vertexBuf ∉ eventWrites (Event.launch Kern.buildHierarchy
      (mkLBVHParams 2).numPrims) ∧
    Buf.nodes ∉ eventWrites (Event.hread Buf.nodes 0) :=
  ⟨((claim_C9 4 2 1).1 _ (by decide)).1,
   ((claim_C9 4 2 1).2 (Event.hread Buf.nodes 0) (by decide)).1⟩

end SwBVH

namespace SwBVH

/-- Claim C10: the scene-bounds accumulator is not a separate scalar pair;
it lives in entries 0 and 1 of the AABB output array — the slot the
`2i`/`2i+1` indexing assigns to node 0 — with the min-corner seed at entry
`2*0` and the max-corner seed at entry `2*0+1`, written by the host on the
mapped buffer during setup, before any kernel launch. -/
theorem claim_C10 (V P F : Nat) :
    Event.hwrite Buf.aabbs (2 * 0) seedLoVal ∈ hostSetupEvents V P ∧
    Event.hwrite Buf.aabbs (2 * 0 + 1) seedHiVal ∈ hostSetupEvents V P ∧
    seedLoVal = ⟨XVal.fin lit1e20, XVal.fin lit1e20, XVal.fin lit1e20⟩ ∧
    seedHiVal = ⟨XVal.fin (-lit1e20), XVal.fin (-lit1e20), XVal.fin (-lit1e20)⟩ ∧
    (∀ e ∈ hostSetupEvents V P, isLaunch e = false) ∧
    hostTrace V P F = hostSetupEvents V P ++ (hostBuildEvents P ++ hostPostEvents P F) := by
  refine ⟨by simp [hostSetupEvents], by simp [hostSetupEvents], rfl, rfl, ?_, rfl⟩
  intro e he
  simp only [hostSetupEvents, List.mem_cons, List.not_mem_nil, or_false] at he
  rcases he with rfl | rfl | rfl | rfl | rfl | rfl | rfl | rfl | rfl <;> rfl

/-- Claim C10 witness: in a `V = 4`, `P = 2`, `F = 1` run the two seed
writes target AABB entries 0 and 1 and no setup event is a launch. -/
theorem claim_C10_witness :
    Event.hwrite Buf.aabbs (2 * 0) seedLoVal ∈ hostSetupEvents 4 2 ∧
    isLaunch (Event.hwrite Buf.aabbs 0 seedLoVal) = false :=
  ⟨(claim_C10 4 2 1).1,
   (claim_C10 4 2 1).2.2.2.2.1 (Event.hwrite Buf.aabbs 0 seedLoVal) (by decide)⟩

/-- Claim C1 counterexample: the host pre-seeds the accumulator with the
finite sentinel `1e20f`, not with `(+inf,+inf,+inf)` / `(-inf,-inf,-inf)`
as the claim states: the seeded corners differ from the infinite ones. -/
theorem claim_C1_counterexample :
    seedLoVal ≠ XVec3.mk XVal.pinf XVal.pinf XVal.pinf ∧
    seedHiVal ≠ XVec3.mk XVal.ninf XVal.ninf XVal.ninf := by
  decide

/-- Claim C1 amended: before stage 1 is launched, the global scene-bounds
accumulator is pre-seeded by the caller to the large finite sentinels
`(1e20, 1e20, 1e20)` for the min corner and `(-1e20, -1e20, -1e20)` for
the max corner (hostCode.cpp lines 151-156), the seeding happening during
setup, which precedes every kernel launch of the trace. -/
theorem claim_C1_amended (V P F : Nat) :
    seedLoVal = ⟨XVal.fin lit1e20, XVal.fin lit1e20, XVal.fin lit1e20⟩ ∧
    seedHiVal = ⟨XVal.fin (-lit1e20), XVal.fin (-lit1e20), XVal.fin (-lit1e20)⟩ ∧
    Event.hwrite Buf.aabbs 0 seedLoVal ∈ hostSetupEvents V P ∧
    Event.hwrite Buf.aabbs 1 seedHiVal ∈ hostSetupEvents V P ∧
    (∀ e ∈ hostSetupEvents V P, isLaunch e = false) ∧
    hostTrace V P F = hostSetupEvents V P ++ (hostBuildEvents P ++ hostPostEvents P F) := by
  refine ⟨rfl, rfl, by simp [hostSetupEvents], by simp [hostSetupEvents], ?_, rfl⟩
  intro e he
  simp only [hostSetupEvents, List.mem_cons, List.not_mem_nil, or_false] at he
  rcases he with rfl | rfl | rfl | rfl | rfl | rfl | rfl | rfl | rfl <;> rfl

/-- Claim C1 amended witness: the concrete `V = 4`, `P = 2`, `F = 1`
instantiation, applied to the index-buffer allocation event. -/
theorem claim_C1_witness :
    Event.hwrite Buf.aabbs 0 seedLoVal ∈ hostSetupEvents 4 2 ∧
    isLaunch (Event.alloc Buf.indexBuf 2) = false :=
  ⟨(claim_C1_amended 4 2 1).2.2.1,
   (claim_C1_amended 4 2 1).2.2.2.2.1 (Event.alloc Buf.indexBuf 2) (by decide)⟩

end SwBVH

namespace SwBVH

/-! ### List and position infrastructure for the refit proofs -/

theorem occ_append {α : Type} [DecidableEq α] (l m : List α) (x : α) :
    occ (l ++ m) x = occ l x + occ m x := by
  induction l with
  | nil => simp [occ]
  | cons a t ih => simp [occ, ih]; omega

theorem occ_pos_of_mem {α : Type} [DecidableEq α] {l : List α} {x : α}
    (h : x ∈ l) : 1 ≤ occ l x := by
  induction l with
  | nil => cases h
  | cons a t ih =>
    rcases List.mem_cons.mp h with rfl | hm
    · simp [occ]
    · have := ih hm
      simp only [occ]
      split <;> omega

theorem mem_of_getElem {α : Type} {l : List α} {i : Nat} {a : α}
    (h : l[i]? = some a) : a ∈ l := by
  induction l generalizing i with
  | nil => simp at h
  | cons c t ih =>
    cases i with
    | zero => simp at h; subst h; exact List.mem_cons_self _ _
    | succ j => exact List.mem_cons_of_mem _ (ih (by simpa using h))

theorem occ_set {α : Type} [DecidableEq α] (l : List α) (i : Nat) (a b x : α)
    (h : l[i]? = some a) :
    occ (l.set i b) x + (if a = x then 1 else 0) =
      occ l x + (if b = x then 1 else 0) := by
  induction l generalizing i with
  | nil => simp at h
  | cons c t ih =>
    cases i with
    | zero =>
      simp only [List.getElem?_cons_zero, Option.some.injEq] at h
      subst h
      simp only [List.set, occ]
      split_ifs <;> omega
    | succ j =>
      simp only [List.getElem?_cons_succ] at h
      simp only [List.set, occ]
      have := ih j h
      omega

theorem getElem_set_cases {α : Type} {l : List α} {i j : Nat} {b c : α}
    (h : (l.set i b)[j]? = some c) : c = b ∨ l[j]? = some c := by
  induction l generalizing i j with
  | nil => simp [List.set] at h
  | cons a t ih =>
    cases i with
    | zero =>
      cases j with
      | zero => simp only [List.set, List.getElem?_cons_zero, Option.some.injEq] at h; exact Or.inl h.symm
      | succ m => right; simpa [List.set] using h
    | succ n =>
      cases j with
      | zero => right; simpa [List.set] using h
      | succ m =>
        simp only [List.set, List.getElem?_cons_succ] at h ⊢
        exact ih h

theorem occ_eq_zero_of_all_none {l : List (Option Pos)} {p : Pos}
    (h : ∀ o ∈ l, o = none) : occ l (some p) = 0 := by
  induction l with
  | nil => rfl
  | cons a t ih =>
    have ha : a = none := h a (List.mem_cons_self _ _)
    subst ha
    have ht := ih (fun o ho => h o (List.mem_cons_of_mem _ ho))
    simp [occ, ht]

theorem subtreeAt_leafT (b : Box) (q : Pos) :
    subtreeAt (BTree.leaf b) q = if q = [] then some (BTree.leaf b) else none := by
  induction q with
  | nil => rfl
  | cons d q ih =>
    simp only [subtreeAt, ih]
    by_cases hq : q = [] <;> simp [hq]

theorem subtreeAt_child {t : BTree} {l r : BTree} {q : Pos}
    (h : subtreeAt t q = some (BTree.node l r)) (d : Bool) :
    subtreeAt t (d :: q) = some (if d then r else l) := by
  simp [subtreeAt, h]

theorem subtreeAt_cons_some {t : BTree} {d : Bool} {q : Pos} {st : BTree}
    (h : subtreeAt t (d :: q) = some st) :
    ∃ l r, subtreeAt t q = some (BTree.node l r) ∧ st = if d then r else l := by
  cases hq : subtreeAt t q with
  | none => rw [subtreeAt, hq] at h; cases h
  | some st' =>
    cases st' with
    | leaf b => rw [subtreeAt, hq] at h; cases h
    | node l r =>
      rw [subtreeAt, hq] at h
      exact ⟨l, r, rfl, (Option.some.injEq _ _ ▸ h).symm⟩

theorem nodeAt_iff {t : BTree} {p : Pos} :
    nodeAt t p = true ↔ ∃ l r, subtreeAt t p = some (BTree.node l r) := by
  unfold nodeAt
  cases h : subtreeAt t p with
  | none => simp
  | some st => cases st <;> simp

theorem leafAt_iff {t : BTree} {p : Pos} {b : Box} :
    leafAt t p = some b ↔ subtreeAt t p = some (BTree.leaf b) := by
  unfold leafAt
  cases h : subtreeAt t p with
  | none => simp
  | some st => cases st <;> simp

theorem leafAt_eq_none_of_nodeAt {t : BTree} {p : Pos}
    (h : nodeAt t p = true) : leafAt t p = none := by
  obtain ⟨l, r, hs⟩ := nodeAt_iff.mp h
  simp [leafAt, hs]

theorem nodeAt_parent_of_cons {t : BTree} {d : Bool} {q : Pos} {st : BTree}
    (h : subtreeAt t (d :: q) = some st) : nodeAt t q = true := by
  obtain ⟨l, r, hq, _⟩ := subtreeAt_cons_some h
  exact nodeAt_iff.mpr ⟨l, r, hq⟩

theorem subtreeAt_append (l r : BTree) (q : Pos) (d : Bool) :
    subtreeAt (BTree.node l r) (q ++ [d]) = subtreeAt (if d then r else l) q := by
  induction q with
  | nil => cases d <;> rfl
  | cons e q ih =>
    simp only [List.cons_append, subtreeAt, List.append_eq]
    rw [ih]

end SwBVH

namespace SwBVH

theorem append_singleton_inj {x q : Pos} {d e : Bool} :
    x ++ [d] = q ++ [e] ↔ x = q ∧ d = e := by
  constructor
  · intro h
    have h1 := congrArg List.reverse h
    simp only [List.reverse_append, List.reverse_cons, List.reverse_nil,
      List.nil_append, List.singleton_append, List.cons.injEq] at h1
    exact ⟨List.reverse_injective h1.2, h1.1⟩
  · rintro ⟨rfl, rfl⟩
    rfl

theorem occ_map_append_nil (L : List Pos) (d : Bool) :
    occ (L.map (fun p => p ++ [d])) [] = 0 := by
  induction L with
  | nil => rfl
  | cons x t ih => simp [occ, ih]

theorem occ_map_append (L : List Pos) (d e : Bool) (q : Pos) :
    occ (L.map (fun p => p ++ [d])) (q ++ [e]) =
      if d = e then occ L q else 0 := by
  induction L with
  | nil => simp [occ]
  | cons x t ih =>
    simp only [List.map_cons, occ, ih, append_singleton_inj]
    split_ifs <;> simp_all <;> omega

theorem leafAt_eq_of_subtree {t t' : BTree} {p p' : Pos}
    (h : subtreeAt t p = subtreeAt t' p') : leafAt t p = leafAt t' p' := by
  unfold leafAt
  rw [h]

theorem occ_leafPositions (t : BTree) (q : Pos) :
    occ (leafPositions t) q = if (leafAt t q).isSome then 1 else 0 := by
  induction t generalizing q with
  | leaf b =>
    simp only [leafPositions, occ, leafAt, subtreeAt_leafT]
    by_cases hq : q = [] <;> simp [hq, eq_comm]
  | node l r ihl ihr =>
    simp only [leafPositions, occ_append]
    rcases List.eq_nil_or_concat q with rfl | ⟨q', e, rfl⟩
    · simp [occ_map_append_nil, leafAt, subtreeAt]
    · simp only [List.concat_eq_append, occ_map_append]
      have hL : leafAt (BTree.node l r) (q' ++ [e]) = leafAt (if e then r else l) q' :=
        leafAt_eq_of_subtree (subtreeAt_append l r q' e)
      cases e
      · simp only [if_neg (by decide : ¬(true = false)),
          if_pos rfl, hL, ihl]
        simp
      · simp only [if_pos rfl, if_neg (by decide : ¬(false = true)), hL, ihr]
        simp

theorem occ_map_walkNext (L : List Pos) (p : Pos) :
    occ (L.map walkNext) (some p) = occ L (false :: p) + occ L (true :: p) := by
  induction L with
  | nil => rfl
  | cons x t ih =>
    simp only [List.map_cons, occ, ih]
    cases x with
    | nil =>
      simp [walkNext]
    | cons d q =>
      by_cases hq : q = p
      · subst hq
        cases d <;> simp [walkNext] <;> omega
      · have h1 : walkNext (d :: q) ≠ some p := by simp [walkNext, hq]
        have h2 : d :: q ≠ false :: p := by simp [hq]
        have h3 : d :: q ≠ true :: p := by simp [hq]
        simp [h1, h2, h3]

theorem occ_initThreads (t : BTree) (p : Pos) :
    occ ((leafPositions t).map walkNext) (some p) =
      (if (leafAt t (false :: p)).isSome then 1 else 0) +
      (if (leafAt t (true :: p)).isSome then 1 else 0) := by
  rw [occ_map_walkNext, occ_leafPositions, occ_leafPositions]

end SwBVH

namespace SwBVH

theorem inv_init (t : BTree) : Inv t (initState t) := by
  constructor
  · intro i p h
    simp only [initState, List.getElem?_map] at h
    cases hlp : (leafPositions t)[i]? with
    | none => rw [hlp] at h; cases h
    | some lp =>
      rw [hlp] at h
      simp at h
      have hmem : lp ∈ leafPositions t := mem_of_getElem hlp
      have hocc : 1 ≤ occ (leafPositions t) lp := occ_pos_of_mem hmem
      rw [occ_leafPositions] at hocc
      have hleaf : (leafAt t lp).isSome := by
        by_contra hn
        rw [if_neg hn] at hocc
        omega
      cases lp with
      | nil => cases h
      | cons d q =>
        simp only [walkNext, Option.some.injEq] at h
        subst h
        obtain ⟨b, hb⟩ := Option.isSome_iff_exists.mp hleaf
        exact nodeAt_parent_of_cons (leafAt_iff.mp hb)
  · intro p hp
    simp only [initState, occ_initThreads, childEmit]
    split_ifs <;> omega
  · intro p hp
    rfl
  · intro p hp
    simp [initState]
  · intro p b hb
    simp [initState, hb]
  · intro p hp
    simp [initState, leafAt_eq_none_of_nodeAt hp]
  · intro p hl hn
    simp [initState, hl]

theorem inv_step_stop {t : BTree} {s : RState} {i : Nat} {p : Pos}
    (hs : Inv t s) (hth : s.threads[i]? = some (some p)) (hc : s.counter p = 0) :
    Inv t { s with
      counter := fun q => if q = p then s.counter p + 1 else s.counter q,
      threads := s.threads.set i none } := by
  have hpnode : nodeAt t p = true := hs.hthreads i p hth
  constructor
  · intro j q hj
    rcases getElem_set_cases hj with h | h
    · cases h
    · exact hs.hthreads j q h
  · intro q hq
    have hbase := hs.hcnt q hq
    have hge : 1 ≤ occ s.threads (some p) := occ_pos_of_mem (mem_of_getElem hth)
    have hocc := occ_set s.threads i (some p) none (some q) hth
    show (if q = p then s.counter p + 1 else s.counter q) +
        occ (s.threads.set i none) (some q) =
      childEmit t s (false :: q) + childEmit t s (true :: q)
    by_cases hqp : q = p
    · subst hqp
      rw [if_pos rfl]
      have hocc2 : occ (s.threads.set i none) (some q) + 1 = occ s.threads (some q) := by
        simpa using hocc
      omega
    · rw [if_neg hqp]
      have hpq : ¬ (some p = some q) := fun h => hqp (Option.some_inj.mp h).symm
      have hocc2 : occ (s.threads.set i none) (some q) = occ s.threads (some q) := by
        simpa [hpq] using hocc
      omega
  · intro q hq
    show s.writes q = (if q = p then s.counter p + 1 else s.counter q) - 1
    by_cases hqp : q = p
    · subst hqp
      have := hs.hw q hq
      rw [if_pos rfl]
      omega
    · rw [if_neg hqp]
      exact hs.hw q hq
  · intro q hq
    show (if q = p then s.counter p + 1 else s.counter q) ≤ 2
    by_cases hqp : q = p
    · subst hqp
      rw [if_pos rfl]
      omega
    · rw [if_neg hqp]
      exact hs.hc2 q hq
  · intro q b hb
    exact hs.hboxleaf q b hb
  · intro q hq
    exact hs.hboxnode q hq
  · intro q hl hn
    exact hs.hboxinv q hl hn

end SwBVH

namespace SwBVH

theorem inv_step_write {t : BTree} {s : RState} {i : Nat} {p : Pos} {s2 : RState}
    (hs : Inv t s) (hth : s.threads[i]? = some (some p)) (hc : s.counter p ≠ 0)
    (h2 : s2 = RState.mk
      (fun q => if q = p then s.counter p + 1 else s.counter q)
      (fun q => if q = p then s.writes p + 1 else s.writes q)
      (fun q => if q = p then childUnion s p else s.boxes q)
      (s.threads.set i (walkNext p))) :
    Inv t s2 := by
  have hcounter : ∀ q, s2.counter q = if q = p then s.counter p + 1 else s.counter q := by
    intro q
    rw [h2]
  have hwrites : ∀ q, s2.writes q = if q = p then s.writes p + 1 else s.writes q := by
    intro q
    rw [h2]
  have hboxes : ∀ q, s2.boxes q = if q = p then childUnion s p else s.boxes q := by
    intro q
    rw [h2]
  have hthreads2 : s2.threads = s.threads.set i (walkNext p) := by rw [h2]
  have hpnode : nodeAt t p = true := hs.hthreads i p hth
  obtain ⟨lt, rt, hsub⟩ := nodeAt_iff.mp hpnode
  have hchildF : subtreeAt t (false :: p) = some lt := by
    simpa using subtreeAt_child hsub false
  have hchildT : subtreeAt t (true :: p) = some rt := by
    simpa using subtreeAt_child hsub true
  have hgeocc : 1 ≤ occ s.threads (some p) := occ_pos_of_mem (mem_of_getElem hth)
  have hbasep := hs.hcnt p hpnode
  have hchildFacts : ∀ (d : Bool) (st : BTree), subtreeAt t (d :: p) = some st →
      childEmit t s (d :: p) ≤ 1 ∧
      (childEmit t s (d :: p) = 1 → s.boxes (d :: p) = some (treeBox st)) := by
    intro d st hset
    cases st with
    | leaf b =>
      have hla : leafAt t (d :: p) = some b := leafAt_iff.mpr hset
      have hE : childEmit t s (d :: p) = 1 := by simp [childEmit, hla]
      refine ⟨le_of_eq hE, fun _ => ?_⟩
      rw [hs.hboxleaf _ _ hla]
      rfl
    | node l2 r2 =>
      have hn2 : nodeAt t (d :: p) = true := nodeAt_iff.mpr ⟨l2, r2, hset⟩
      have hla : leafAt t (d :: p) = none := leafAt_eq_none_of_nodeAt hn2
      have hE : childEmit t s (d :: p) = s.writes (d :: p) := by simp [childEmit, hla]
      have hwc := hs.hw _ hn2
      have hc2c := hs.hc2 _ hn2
      constructor
      · omega
      · intro h1
        have hbox := hs.hboxnode _ hn2
        rw [hbox, if_neg (by omega)]
        simp [treeBoxAt, hset]
  have hEF := hchildFacts false lt hchildF
  have hET := hchildFacts true rt hchildT
  have hcp1 : s.counter p = 1 := by
    have h1 := hEF.1
    have h2x := hET.1
    omega
  have hEF1 : childEmit t s (false :: p) = 1 := by
    have h1 := hEF.1
    have h2x := hET.1
    omega
  have hET1 : childEmit t s (true :: p) = 1 := by
    have h1 := hEF.1
    have h2x := hET.1
    omega
  have hwp0 : s.writes p = 0 := by
    have := hs.hw p hpnode
    omega
  have hbF : s.boxes (false :: p) = some (treeBox lt) := hEF.2 hEF1
  have hbT : s.boxes (true :: p) = some (treeBox rt) := hET.2 hET1
  have hcu : childUnion s p = some (treeBox (BTree.node lt rt)) := by
    simp [childUnion, hbF, hbT, treeBox]
  have htba : treeBoxAt t p = some (treeBox (BTree.node lt rt)) := by
    simp [treeBoxAt, hsub]
  have hce : ∀ c : Pos, c ≠ p → childEmit t s2 c = childEmit t s c := by
    intro c hcne
    simp [childEmit, hwrites c, hcne]
  have hcep2 : childEmit t s2 p = s.writes p + 1 := by
    simp [childEmit, hwrites p, leafAt_eq_none_of_nodeAt hpnode]
  constructor
  · intro j q hj
    rw [hthreads2] at hj
    rcases getElem_set_cases hj with h | h
    · cases hp : p with
      | nil => rw [hp] at h; cases h
      | cons d q' =>
        rw [hp] at h
        simp only [walkNext, Option.some.injEq] at h
        subst h
        rw [hp] at hsub
        exact nodeAt_parent_of_cons hsub
    · exact hs.hthreads j q h
  · intro q hq
    have hbase := hs.hcnt q hq
    have hocc := occ_set s.threads i (some p) (walkNext p) (some q) hth
    rw [hcounter q, hthreads2]
    by_cases hqp : q = p
    · subst hqp
      have hwn : walkNext q ≠ some q := by
        cases q with
        | nil => simp [walkNext]
        | cons d q' =>
          show walkNext (d :: q') ≠ some (d :: q')
          simp only [walkNext]
          exact fun h => List.cons_ne_self d q' (Option.some_inj.mp h).symm
      have hocc2 : occ (s.threads.set i (walkNext q)) (some q) + 1 =
          occ s.threads (some q) := by
        simpa [hwn] using hocc
      rw [if_pos rfl, hce _ (List.cons_ne_self false q),
        hce _ (List.cons_ne_self true q)]
      omega
    · rw [if_neg hqp]
      have hpq : ¬ (some p = some q) := fun h => hqp (Option.some_inj.mp h).symm
      by_cases hwq : walkNext p = some q
      · obtain ⟨d, hp⟩ : ∃ d, p = d :: q := by
          cases hp : p with
          | nil => rw [hp] at hwq; simp [walkNext] at hwq
          | cons d q' =>
            rw [hp] at hwq
            simp only [walkNext, Option.some.injEq] at hwq
            exact ⟨d, by rw [hwq]⟩
        have hocc2 : occ (s.threads.set i (walkNext p)) (some q) =
            occ s.threads (some q) + 1 := by
          simpa [hwq, hpq] using hocc
        subst hp
        have hEold : childEmit t s (d :: q) = s.writes (d :: q) := by
          simp [childEmit, leafAt_eq_none_of_nodeAt hpnode]
        cases d
        · rw [hce (true :: q) (by simp), hcep2, hocc2]
          rw [hEold] at hbase
          omega
        · rw [hce (false :: q) (by simp), hcep2, hocc2]
          rw [hEold] at hbase
          omega
      · have hocc2 : occ (s.threads.set i (walkNext p)) (some q) =
            occ s.threads (some q) := by
          simpa [hpq, hwq] using hocc
        have hne : ∀ e : Bool, (e :: q : Pos) ≠ p := by
          intro e he
          apply hwq
          rw [← he]
          rfl
        rw [hce _ (hne false), hce _ (hne true), hocc2]
        omega
  · intro q hq
    rw [hwrites q, hcounter q]
    by_cases hqp : q = p
    · subst hqp
      rw [if_pos rfl, if_pos rfl]
      omega
    · rw [if_neg hqp, if_neg hqp]
      exact hs.hw q hq
  · intro q hq
    rw [hcounter q]
    by_cases hqp : q = p
    · subst hqp
      rw [if_pos rfl]
      omega
    · rw [if_neg hqp]
      exact hs.hc2 q hq
  · intro q b hb
    rw [hboxes q]
    have hqp : q ≠ p := by
      intro h
      subst h
      rw [leafAt_eq_none_of_nodeAt hpnode] at hb
      cases hb
    rw [if_neg hqp]
    exact hs.hboxleaf q b hb
  · intro q hq
    rw [hboxes q, hwrites q]
    by_cases hqp : q = p
    · subst hqp
      rw [if_pos rfl, if_pos rfl, if_neg (by omega : ¬ s.writes q + 1 = 0)]
      rw [hcu, htba]
    · rw [if_neg hqp, if_neg hqp]
      exact hs.hboxnode q hq
  · intro q hl hn
    rw [hboxes q]
    have hqp : q ≠ p := by
      intro h
      subst h
      rw [hpnode] at hn
      cases hn
    rw [if_neg hqp]
    exact hs.hboxinv q hl hn

end SwBVH

namespace SwBVH

theorem inv_step {t : BTree} {s : RState} (hs : Inv t s) (i : Nat) :
    Inv t (step s i) := by
  cases hth : s.threads[i]? with
  | none => simpa [step, hth] using hs
  | some o =>
    cases o with
    | none => simpa [step, hth] using hs
    | some p =>
      by_cases hc : s.counter p = 0
      · have h := inv_step_stop hs hth hc
        simpa [step, hth, hc] using h
      · have h := inv_step_write hs hth hc rfl
        simpa [step, hth, hc] using h

theorem inv_run (t : BTree) (sch : List Nat) : Inv t (run t sch) := by
  suffices h : ∀ s : RState, Inv t s → Inv t (sch.foldl step s) from h _ (inv_init t)
  induction sch with
  | nil => exact fun s hs => hs
  | cons a l ih => exact fun s hs => ih _ (inv_step hs a)

theorem final_node_props {t : BTree} {s : RState} (hs : Inv t s)
    (hdone : completeRun s) :
    ∀ (st : BTree) (p : Pos) (l r : BTree), subtreeAt t p = some st →
      st = BTree.node l r →
      s.counter p = 2 ∧ s.writes p = 1 ∧ s.boxes p = some (treeBox st) := by
  intro st
  induction st with
  | leaf b => intro p l r _ hst; cases hst
  | node lc rc ihl ihr =>
    intro p l r hp hst
    have hpn : nodeAt t p = true := nodeAt_iff.mpr ⟨lc, rc, by rw [hp]⟩
    have hchildF : subtreeAt t (false :: p) = some lc := by
      simpa using subtreeAt_child (by rw [hp]) false
    have hchildT : subtreeAt t (true :: p) = some rc := by
      simpa using subtreeAt_child (by rw [hp]) true
    have hEF : childEmit t s (false :: p) = 1 := by
      cases hlc : lc with
      | leaf b =>
        have hla : leafAt t (false :: p) = some b := leafAt_iff.mpr (by rw [hchildF, hlc])
        simp [childEmit, hla]
      | node a b =>
        have hw := (ihl (false :: p) a b hchildF hlc).2.1
        have hn2 : nodeAt t (false :: p) = true :=
          nodeAt_iff.mpr ⟨a, b, by rw [hchildF, hlc]⟩
        rw [childEmit, if_neg (by simp [leafAt_eq_none_of_nodeAt hn2])]
        exact hw
    have hET : childEmit t s (true :: p) = 1 := by
      cases hrc : rc with
      | leaf b =>
        have hla : leafAt t (true :: p) = some b := leafAt_iff.mpr (by rw [hchildT, hrc])
        simp [childEmit, hla]
      | node a b =>
        have hw := (ihr (true :: p) a b hchildT hrc).2.1
        have hn2 : nodeAt t (true :: p) = true :=
          nodeAt_iff.mpr ⟨a, b, by rw [hchildT, hrc]⟩
        rw [childEmit, if_neg (by simp [leafAt_eq_none_of_nodeAt hn2])]
        exact hw
    have hocc0 : occ s.threads (some p) = 0 := occ_eq_zero_of_all_none hdone
    have hbase := hs.hcnt p hpn
    have hc2 : s.counter p = 2 := by omega
    have hw1 : s.writes p = 1 := by
      have := hs.hw p hpn
      omega
    refine ⟨hc2, hw1, ?_⟩
    have hbox := hs.hboxnode p hpn
    rw [hbox, if_neg (by omega)]
    simp [treeBoxAt, hp]

theorem refit_final_boxes {t : BTree} {sch : List Nat}
    (hdone : completeRun (run t sch)) :
    ∀ p : Pos, (run t sch).boxes p = treeBoxAt t p := by
  intro p
  have hs := inv_run t sch
  cases hp : subtreeAt t p with
  | none =>
    have hl : leafAt t p = none := by simp [leafAt, hp]
    have hn : nodeAt t p = false := by simp [nodeAt, hp]
    rw [hs.hboxinv p hl hn]
    simp [treeBoxAt, hp]
  | some st =>
    cases st with
    | leaf b =>
      have hl : leafAt t p = some b := leafAt_iff.mpr hp
      rw [hs.hboxleaf p b hl]
      simp [treeBoxAt, hp, treeBox]
    | node l r =>
      have h := final_node_props hs hdone (BTree.node l r) p l r hp rfl
      rw [h.2.2]
      simp [treeBoxAt, hp]

end SwBVH

namespace SwBVH

/-- Claim C5: during the refit stage, each internal node's union-and-write
code path executes exactly once per build and produces exactly the union
of the leaf boxes below it — which requires both children's AABBs to be
final at the moment of the write — for any tree shape (the tree `t` and
the thread interleaving `sch` are arbitrary, covering fully unbalanced
trees): under every schedule the write count never exceeds one and a
written box is already the exact subtree union; under every completed
schedule the count is exactly one. -/
theorem claim_C5 (t : BTree) (sch : List Nat) (p : Pos)
    (hp : nodeAt t p = true) :
    (run t sch).writes p ≤ 1 ∧
    ((run t sch).writes p = 1 → (run t sch).boxes p = treeBoxAt t p) ∧
    (completeRun (run t sch) →
      (run t sch).writes p = 1 ∧ (run t sch).boxes p = treeBoxAt t p) := by
  have hs := inv_run t sch
  have hw := hs.hw p hp
  have hc2 := hs.hc2 p hp
  refine ⟨by omega, ?_, ?_⟩
  · intro h1
    have hbox := hs.hboxnode p hp
    rw [hbox, if_neg (by omega)]
  · intro hdone
    obtain ⟨l, r, hsub⟩ := nodeAt_iff.mp hp
    have h := final_node_props hs hdone (BTree.node l r) p l r hsub rfl
    refine ⟨h.2.1, ?_⟩
    rw [h.2.2]
    simp [treeBoxAt, hsub]

/-- Claim C5 witness: a concrete fully unbalanced three-leaf tree under
the complete schedule `[0, 1, 2, 1]`; the root `[]` is an internal
position, the schedule terminates every thread, and the theorem applies. -/
theorem claim_C5_witness :
    nodeAt (BTree.node (BTree.node (BTree.leaf ⟨⟨0, 0, 0⟩, ⟨1, 1, 1⟩⟩)
        (BTree.leaf ⟨⟨2, 0, 0⟩, ⟨3, 1, 1⟩⟩)) (BTree.leaf ⟨⟨0, 5, 0⟩, ⟨1, 6, 1⟩⟩))
      [] = true ∧
    completeRun (run (BTree.node (BTree.node (BTree.leaf ⟨⟨0, 0, 0⟩, ⟨1, 1, 1⟩⟩)
        (BTree.leaf ⟨⟨2, 0, 0⟩, ⟨3, 1, 1⟩⟩)) (BTree.leaf ⟨⟨0, 5, 0⟩, ⟨1, 6, 1⟩⟩))
      [0, 1, 2, 1]) ∧
    (run (BTree.node (BTree.node (BTree.leaf ⟨⟨0, 0, 0⟩, ⟨1, 1, 1⟩⟩)
        (BTree.leaf ⟨⟨2, 0, 0⟩, ⟨3, 1, 1⟩⟩)) (BTree.leaf ⟨⟨0, 5, 0⟩, ⟨1, 6, 1⟩⟩))
      [0, 1, 2, 1]).writes [] ≤ 1 :=
  ⟨by decide, by decide,
   (claim_C5 (BTree.node (BTree.node (BTree.leaf ⟨⟨0, 0, 0⟩, ⟨1, 1, 1⟩⟩)
      (BTree.leaf ⟨⟨2, 0, 0⟩, ⟨3, 1, 1⟩⟩)) (BTree.leaf ⟨⟨0, 5, 0⟩, ⟨1, 6, 1⟩⟩))
    [0, 1, 2, 1] [] (by decide)).1⟩

end SwBVH

namespace SwBVH

theorem boxUnion_right_comm (a b c : Box) :
    boxUnion (boxUnion a b) c = boxUnion (boxUnion a c) b := by
  simp only [boxUnion, vmin, vmax, Box.mk.injEq, Vec3.mk.injEq]
  refine ⟨⟨?_, ?_, ?_⟩, ?_, ?_, ?_⟩
  · exact min_right_comm _ _ _
  · exact min_right_comm _ _ _
  · exact min_right_comm _ _ _
  · exact sup_right_comm _ _ _
  · exact sup_right_comm _ _ _
  · exact sup_right_comm _ _ _

theorem accumBounds_perm {l1 l2 : List Box} (h : l1.Perm l2) :
    accumBounds l1 = accumBounds l2 :=
  h.foldl_eq' (fun x _ y _ z => boxUnion_right_comm z x y) seedBox

/-- Claim C6: for a fixed input geometry, the whole build is deterministic:
whatever order the stage-1 atomic min/max arrivals take (`ao1`, `ao2`:
any two permutations of the per-primitive boxes) and whatever thread
interleavings the refit stage takes (`sch1`, `sch2`: any two completed
schedules), the scene bounds, the sorted Morton keys, the sorted primitive
permutation, the node links and every final AABB are identical. -/
theorem claim_C6 (g : Geom) (ao1 ao2 : List Box) (sch1 sch2 : List Nat)
    (hp1 : ao1.Perm (primBoxes g)) (hp2 : ao2.Perm (primBoxes g))
    (hd1 : completeRun (run (buildTreeOf g (buildScene ao1)) sch1))
    (hd2 : completeRun (run (buildTreeOf g (buildScene ao2)) sch2)) :
    buildScene ao1 = buildScene ao2 ∧
    buildKeys g (buildScene ao1) = buildKeys g (buildScene ao2) ∧
    buildIds g (buildScene ao1) = buildIds g (buildScene ao2) ∧
    buildLinks g (buildScene ao1) = buildLinks g (buildScene ao2) ∧
    ∀ p : Pos,
      refitBoxes g (buildScene ao1) sch1 p = refitBoxes g (buildScene ao2) sch2 p := by
  have hscene : buildScene ao1 = buildScene ao2 := by
    have h1 : accumBounds ao1 = accumBounds (primBoxes g) := accumBounds_perm hp1
    have h2 : accumBounds ao2 = accumBounds (primBoxes g) := accumBounds_perm hp2
    unfold buildScene
    rw [h1, h2]
  refine ⟨hscene, by rw [hscene], by rw [hscene], by rw [hscene], ?_⟩
  intro p
  unfold refitBoxes
  rw [refit_final_boxes hd1 p, refit_final_boxes hd2 p, hscene]

theorem step_of_done {s : RState} (h : ∀ o ∈ s.threads, o = none) (i : Nat) :
    step s i = s := by
  cases hth : s.threads[i]? with
  | none => simp [step, hth]
  | some o =>
    have ho : o = none := h o (mem_of_getElem hth)
    subst ho
    simp [step, hth]

theorem run_of_done {t : BTree} (h : ∀ o ∈ (initState t).threads, o = none)
    (sch : List Nat) : run t sch = initState t := by
  unfold run
  induction sch with
  | nil => rfl
  | cons a l ih =>
    rw [List.foldl_cons, step_of_done h a]
    exact ih

theorem initState_leaf_threads (b : Box) :
    (initState (BTree.leaf b)).threads = [none] := rfl

/-- Claim C7: a single-primitive build (`P = 1`, the spec's degenerate
case) has `numInner = 0` and `numNodes = 1`; the produced tree is exactly
one leaf whose AABB is the triangle's own bounds, there is no internal
node at any position, and the refit stage completes under every schedule
leaving the leaf AABB equal to the primitive's bounds. -/
theorem claim_C7 (a b c : Vec3) (sch : List Nat) :
    (mkLBVHParams 1).numInner = 0 ∧
    (mkLBVHParams 1).numNodes = 1 ∧
    buildTreeOf (oneTriGeom a b c) (buildScene (primBoxes (oneTriGeom a b c))) =
      BTree.leaf (triBox3 a b c) ∧
    (∀ p : Pos, nodeAt (BTree.leaf (triBox3 a b c)) p = false) ∧
    completeRun (run (BTree.leaf (triBox3 a b c)) sch) ∧
    (run (BTree.leaf (triBox3 a b c)) sch).boxes [] = some (triBox3 a b c) := by
  have hdone : ∀ o ∈ (initState (BTree.leaf (triBox3 a b c))).threads, o = none := by
    rw [initState_leaf_threads]
    intro o ho
    simpa using ho
  refine ⟨rfl, rfl, rfl, ?_, ?_, ?_⟩
  · intro p
    unfold nodeAt
    rw [subtreeAt_leafT]
    by_cases hp : p = [] <;> simp [hp]
  · rw [run_of_done hdone sch]
    exact hdone
  · rw [run_of_done hdone sch]
    rfl

end SwBVH

namespace SwBVH

/-- Claim C6 witness: a concrete single-triangle geometry with the identity
accumulation order and two different refit schedules; both runs complete
and the theorem yields identical final AABBs at every position. -/
theorem claim_C6_witness :
    completeRun (run (buildTreeOf (oneTriGeom ⟨0, 0, 0⟩ ⟨1, 0, 0⟩ ⟨0, 1, 0⟩)
        (buildScene (primBoxes (oneTriGeom ⟨0, 0, 0⟩ ⟨1, 0, 0⟩ ⟨0, 1, 0⟩)))) [0]) ∧
    completeRun (run (buildTreeOf (oneTriGeom ⟨0, 0, 0⟩ ⟨1, 0, 0⟩ ⟨0, 1, 0⟩)
        (buildScene (primBoxes (oneTriGeom ⟨0, 0, 0⟩ ⟨1, 0, 0⟩ ⟨0, 1, 0⟩)))) [2, 5]) ∧
    (∀ p : Pos,
      refitBoxes (oneTriGeom ⟨0, 0, 0⟩ ⟨1, 0, 0⟩ ⟨0, 1, 0⟩)
        (buildScene (primBoxes (oneTriGeom ⟨0, 0, 0⟩ ⟨1, 0, 0⟩ ⟨0, 1, 0⟩))) [0] p =
      refitBoxes (oneTriGeom ⟨0, 0, 0⟩ ⟨1, 0, 0⟩ ⟨0, 1, 0⟩)
        (buildScene (primBoxes (oneTriGeom ⟨0, 0, 0⟩ ⟨1, 0, 0⟩ ⟨0, 1, 0⟩))) [2, 5] p) := by
  have hdone : ∀ o ∈ (initState (BTree.leaf
      (triBox3 ⟨0, 0, 0⟩ ⟨1, 0, 0⟩ ⟨0, 1, 0⟩))).threads, o = none := by
    rw [initState_leaf_threads]
    intro o ho
    simpa using ho
  have htree : buildTreeOf (oneTriGeom ⟨0, 0, 0⟩ ⟨1, 0, 0⟩ ⟨0, 1, 0⟩)
      (buildScene (primBoxes (oneTriGeom ⟨0, 0, 0⟩ ⟨1, 0, 0⟩ ⟨0, 1, 0⟩))) =
      BTree.leaf (triBox3 ⟨0, 0, 0⟩ ⟨1, 0, 0⟩ ⟨0, 1, 0⟩) := rfl
  have h1 : completeRun (run (buildTreeOf (oneTriGeom ⟨0, 0, 0⟩ ⟨1, 0, 0⟩ ⟨0, 1, 0⟩)
      (buildScene (primBoxes (oneTriGeom ⟨0, 0, 0⟩ ⟨1, 0, 0⟩ ⟨0, 1, 0⟩)))) [0]) := by
    rw [htree, run_of_done hdone]
    exact hdone
  have h2 : completeRun (run (buildTreeOf (oneTriGeom ⟨0, 0, 0⟩ ⟨1, 0, 0⟩ ⟨0, 1, 0⟩)
      (buildScene (primBoxes (oneTriGeom ⟨0, 0, 0⟩ ⟨1, 0, 0⟩ ⟨0, 1, 0⟩)))) [2, 5]) := by
    rw [htree, run_of_done hdone]
    exact hdone
  exact ⟨h1, h2,
    (claim_C6 (oneTriGeom ⟨0, 0, 0⟩ ⟨1, 0, 0⟩ ⟨0, 1, 0⟩)
      (primBoxes (oneTriGeom ⟨0, 0, 0⟩ ⟨1, 0, 0⟩ ⟨0, 1, 0⟩))
      (primBoxes (oneTriGeom ⟨0, 0, 0⟩ ⟨1, 0, 0⟩ ⟨0, 1, 0⟩))
      [0] [2, 5] (List.Perm.refl _) (List.Perm.refl _) h1 h2).2.2.2.2⟩

end SwBVH
